import Mathlib

/-!
Verification of the AfterImage evidence-grounding pipeline.

The definitions below are a shallow embedding of the TypeScript sources:
  - supabase/functions/ask-doc/index.ts  (Gemini edge function)
  - the ask-openAI edge function variant
  - src/components/PdfViewerPane.tsx     (quote-to-region locator)
Strings are modelled as lists of characters.  JavaScript string methods
(replace with the concrete regexes used, trim, includes, indexOf, slice)
are translated one by one.  The toLowerCase translation covers the ASCII
letters, which is the fragment exercised by every comparison in the code.
-/

/-- Shorthand: character list of a string literal. -/
def S (s : String) : List Char := s.data

/-- The character class of the JavaScript regex class backslash-s
(whitespace): space, tab, line feed, vertical tab, form feed, carriage
return, and the Unicode space characters plus BOM. -/
def isJsSpace (c : Char) : Bool :=
  c = ' ' || c = '\t' || c = '\n' || c = '\x0b' || c = '\x0c' || c = '\r' ||
  c = ' ' || c = ' ' || c = ' ' || c = ' ' || c = ' ' ||
  c = ' ' || c = ' ' || c = ' ' || c = ' ' || c = ' ' ||
  c = ' ' || c = ' ' || c = ' ' || c = ' ' || c = ' ' ||
  c = ' ' || c = ' ' || c = '　' || c = '﻿'

/-- ASCII fragment of the JavaScript toLowerCase. -/
def charToLower (c : Char) : Char :=
  match c with
  | 'A' => 'a' | 'B' => 'b' | 'C' => 'c' | 'D' => 'd' | 'E' => 'e'
  | 'F' => 'f' | 'G' => 'g' | 'H' => 'h' | 'I' => 'i' | 'J' => 'j'
  | 'K' => 'k' | 'L' => 'l' | 'M' => 'm' | 'N' => 'n' | 'O' => 'o'
  | 'P' => 'p' | 'Q' => 'q' | 'R' => 'r' | 'S' => 's' | 'T' => 't'
  | 'U' => 'u' | 'V' => 'v' | 'W' => 'w' | 'X' => 'x' | 'Y' => 'y'
  | 'Z' => 'z' | c => c

/-- Map toLowerCase over a string. -/
def mapToLower (l : List Char) : List Char := l.map charToLower

/-- One pass of the replace of the regex "backslash-s plus" by a single
space: the flag records whether the previous character was whitespace
(in which case further whitespace is absorbed into the same run). -/
def collapseAux : Bool → List Char → List Char
  | _, [] => []
  | prevSpace, c :: rest =>
    if isJsSpace c then
      if prevSpace then collapseAux true rest
      else ' ' :: collapseAux true rest
    else c :: collapseAux false rest

/-- Remove trailing JavaScript whitespace. -/
def dropTrailingWs (l : List Char) : List Char :=
  (l.reverse.dropWhile isJsSpace).reverse

/-- JavaScript String.prototype.trim. -/
def jsTrim (l : List Char) : List Char :=
  dropTrailingWs (l.dropWhile isJsSpace)

/-- Source, ask-doc/index.ts line 43 (likewise in the ask-openAI function
and PdfViewerPane normalizeWS): collapse every whitespace run to a single
space and trim the ends. -/
def normalizeWhitespace (l : List Char) : List Char :=
  jsTrim (collapseAux false l)

/-- Source, PdfViewerPane.tsx removeWhitespace: replace of the regex
"backslash-s plus" by the empty string. -/
def removeWhitespace (l : List Char) : List Char :=
  l.filter (fun c => !(isJsSpace c))

/-- JavaScript List.isPrefixOf-based prefix test used to build includes
and indexOf. -/
def startsWithL (needle hay : List Char) : Bool :=
  needle.isPrefixOf hay

/-- JavaScript String.prototype.includes. -/
def listIncludes (hay needle : List Char) : Bool :=
  if startsWithL needle hay then true
  else
    match hay with
    | [] => false
    | _ :: t => listIncludes t needle

/-- JavaScript String.prototype.indexOf, with none for minus one. -/
def indexOfL (hay needle : List Char) : Option Nat :=
  if startsWithL needle hay then some 0
  else
    match hay with
    | [] => none
    | _ :: t => (indexOfL t needle).map (· + 1)

/-- Index of the first occurrence of a character (String.prototype.indexOf
with a single-character argument). -/
def indexOfChar (l : List Char) (c : Char) : Option Nat :=
  match l with
  | [] => none
  | x :: t => if x = c then some 0 else (indexOfChar t c).map (· + 1)

/-- Index of the last occurrence of a character
(String.prototype.lastIndexOf). -/
def lastIndexOfChar (l : List Char) (c : Char) : Option Nat :=
  match l with
  | [] => none
  | x :: t =>
    match lastIndexOfChar t c with
    | some i => some (i + 1)
    | none => if x = c then some 0 else none

-- ---------------------------------------------------------------------------
-- Data model (ask-doc/index.ts lines 19 to 37)
-- ---------------------------------------------------------------------------

/-- PageInput: numeric page plus extracted text.  JavaScript numbers are
modelled as integers, which covers every value the validation accepts as a
page number in the scenarios considered. -/
structure PageInput where
  page : Int
  text : List Char
deriving DecidableEq, Repr

/-- EvidenceItem of both edge functions. -/
structure EvidenceItem where
  page : Int
  quote : List Char
  note : List Char
deriving DecidableEq, Repr

/-- Source, ask-doc/index.ts lines 47 to 57: find the first page record
with the requested number and test normalized substring containment.
The ask-openAI function contains the identical definition. -/
def verifyQuote (pages : List PageInput) (page : Int) (quote : List Char) : Bool :=
  match pages.find? (fun p => p.page == page) with
  | none => false
  | some pageData =>
    listIncludes (normalizeWhitespace pageData.text) (normalizeWhitespace quote)

/-- Source, ask-doc/index.ts lines 59 to 64: keep the items whose quote
verifies. -/
def filterEvidence (items : List EvidenceItem) (pages : List PageInput) : List EvidenceItem :=
  items.filter (fun item => verifyQuote pages item.page item.quote)

/-- Source, ask-openAI function lines 57 to 64: item-level constraints.
Number.isInteger holds for every value of the integer page model. -/
def isEvidenceItem (item : EvidenceItem) : Bool :=
  decide (0 < item.page) &&
  decide (0 < item.quote.length) &&
  decide (item.quote.length ≤ 180)

/-- Source, ask-openAI function lines 74 to 78: constraint-and-verify
filter followed by slice to the evidence cap. -/
def filterEvidenceMax (items : List EvidenceItem) (pages : List PageInput)
    (maxEvidence : Nat) : List EvidenceItem :=
  (items.filter
    (fun item => isEvidenceItem item && verifyQuote pages item.page item.quote)).take
    maxEvidence

-- ---------------------------------------------------------------------------
-- JSON values and a model of JSON.parse
-- ---------------------------------------------------------------------------

/-- JSON abstract syntax.  Number literals keep their lexeme, which is all
the pipeline ever inspects. -/
inductive Json where
  | null
  | bool (b : Bool)
  | num (lexeme : List Char)
  | str (s : List Char)
  | arr (elems : List Json)
  | obj (fields : List (List Char × Json))

/-- JSON grammar whitespace (strictly smaller than the regex class). -/
def isJsonWs (c : Char) : Bool :=
  c = ' ' || c = '\t' || c = '\n' || c = '\r'

/-- Skip JSON whitespace. -/
def skipJsonWs (l : List Char) : List Char := l.dropWhile isJsonWs

/-- Hex digit value. -/
def hexVal (c : Char) : Option Nat :=
  if '0' ≤ c ∧ c ≤ '9' then some (c.toNat - '0'.toNat)
  else if 'a' ≤ c ∧ c ≤ 'f' then some (c.toNat - 'a'.toNat + 10)
  else if 'A' ≤ c ∧ c ≤ 'F' then some (c.toNat - 'A'.toNat + 10)
  else none

/-- Body of a JSON string literal, the opening quote already consumed.
Returns the decoded contents and the input after the closing quote. -/
def parseStringBody : List Char → Option (List Char × List Char)
  | [] => none
  | '"' :: rest => some ([], rest)
  | '\\' :: e :: rest =>
    match e with
    | '"' => (parseStringBody rest).map (fun p => ('"' :: p.1, p.2))
    | '\\' => (parseStringBody rest).map (fun p => ('\\' :: p.1, p.2))
    | '/' => (parseStringBody rest).map (fun p => ('/' :: p.1, p.2))
    | 'b' => (parseStringBody rest).map (fun p => ('\x08' :: p.1, p.2))
    | 'f' => (parseStringBody rest).map (fun p => ('\x0c' :: p.1, p.2))
    | 'n' => (parseStringBody rest).map (fun p => ('\n' :: p.1, p.2))
    | 'r' => (parseStringBody rest).map (fun p => ('\r' :: p.1, p.2))
    | 't' => (parseStringBody rest).map (fun p => ('\t' :: p.1, p.2))
    | 'u' =>
      match rest with
      | h1 :: h2 :: h3 :: h4 :: rest2 =>
        match hexVal h1, hexVal h2, hexVal h3, hexVal h4 with
        | some a, some b, some c, some d =>
          (parseStringBody rest2).map
            (fun p => (Char.ofNat (((a * 16 + b) * 16 + c) * 16 + d) :: p.1, p.2))
        | _, _, _, _ => none
      | _ => none
    | _ => none
  | '\\' :: [] => none
  | c :: rest =>
    if c.toNat < 32 then none
    else (parseStringBody rest).map (fun p => (c :: p.1, p.2))

/-- JSON number lexeme: optional minus, integer part, optional fraction,
optional exponent.  Returns the lexeme and the rest. -/
def parseNumber (l : List Char) : Option (List Char × List Char) :=
  let (sgn, l1) :=
    match l with
    | '-' :: t => (['-'], t)
    | _ => (([] : List Char), l)
  match l1 with
  | '0' :: t => some (parseNumTail sgn ['0'] t)
  | c :: t =>
    if c.isDigit then
      let ds := t.takeWhile Char.isDigit
      some (parseNumTail sgn (c :: ds) (t.dropWhile Char.isDigit))
    else none
  | [] => none
where
  parseNumTail (sgn intPart : List Char) (rest : List Char) : List Char × List Char :=
    let (fracPart, r1) :=
      match rest with
      | '.' :: t =>
        let ds := t.takeWhile Char.isDigit
        if ds.isEmpty then (([] : List Char), rest)
        else ('.' :: ds, t.dropWhile Char.isDigit)
      | _ => ([], rest)
    let (expPart, r2) :=
      match r1 with
      | e :: t =>
        if e = 'e' ∨ e = 'E' then
          let (es, t2) :=
            match t with
            | '+' :: t2 => (['+'], t2)
            | '-' :: t2 => (['-'], t2)
            | _ => (([] : List Char), t)
          let ds := t2.takeWhile Char.isDigit
          if ds.isEmpty then (([] : List Char), r1)
          else (e :: (es ++ ds), t2.dropWhile Char.isDigit)
        else ([], r1)
      | [] => ([], r1)
    (sgn ++ intPart ++ fracPart ++ expPart, r2)

mutual

/-- Recursive-descent JSON value parser (model of JSON.parse), fuelled. -/
def parseValue : Nat → List Char → Option (Json × List Char)
  | 0, _ => none
  | fuel + 1, input =>
    match skipJsonWs input with
    | '\x7b' :: rest =>
      (match skipJsonWs rest with
       | '\x7d' :: r2 => some (Json.obj [], r2)
       | r1 => (parseFields fuel r1).map (fun p => (Json.obj p.1, p.2)))
    | '[' :: rest =>
      (match skipJsonWs rest with
       | ']' :: r2 => some (Json.arr [], r2)
       | r1 => (parseElems fuel r1).map (fun p => (Json.arr p.1, p.2)))
    | '"' :: rest => (parseStringBody rest).map (fun p => (Json.str p.1, p.2))
    | 't' :: 'r' :: 'u' :: 'e' :: rest => some (Json.bool true, rest)
    | 'f' :: 'a' :: 'l' :: 's' :: 'e' :: rest => some (Json.bool false, rest)
    | 'n' :: 'u' :: 'l' :: 'l' :: rest => some (Json.null, rest)
    | other => (parseNumber other).map (fun p => (Json.num p.1, p.2))

/-- Object members, positioned at a key. -/
def parseFields : Nat → List Char → Option (List (List Char × Json) × List Char)
  | 0, _ => none
  | fuel + 1, input =>
    match input with
    | '"' :: rest =>
      (match parseStringBody rest with
       | none => none
       | some (key, r1) =>
         match skipJsonWs r1 with
         | ':' :: r2 =>
           (match parseValue fuel r2 with
            | none => none
            | some (v, r3) =>
              match skipJsonWs r3 with
              | ',' :: r4 =>
                (parseFields fuel (skipJsonWs r4)).map
                  (fun p => ((key, v) :: p.1, p.2))
              | '\x7d' :: r4 => some ([(key, v)], r4)
              | _ => none)
         | _ => none)
    | _ => none

/-- Array elements, positioned at a value. -/
def parseElems : Nat → List Char → Option (List Json × List Char)
  | 0, _ => none
  | fuel + 1, input =>
    match parseValue fuel input with
    | none => none
    | some (v, r1) =>
      match skipJsonWs r1 with
      | ',' :: r2 => (parseElems fuel r2).map (fun p => (v :: p.1, p.2))
      | ']' :: r2 => some ([v], r2)
      | _ => none

end

/-- Model of JSON.parse: a single value followed only by whitespace. -/
def jsonParse (s : List Char) : Option Json :=
  match parseValue (2 * s.length + 2) s with
  | some (v, rest) => if skipJsonWs rest = [] then some v else none
  | none => none

/-- Property access; for duplicate keys the last assignment wins, as in a
parsed JavaScript object. -/
def Json.getField : Json → List Char → Option Json
  | Json.obj fs, key => (fs.reverse.find? (fun f => f.1 == key)).map (fun f => f.2)
  | _, _ => none

/-- typeof x === "string". -/
def Json.isStr : Json → Bool
  | Json.str _ => true
  | _ => false

/-- Array.isArray. -/
def Json.isArr : Json → Bool
  | Json.arr _ => true
  | _ => false

-- ---------------------------------------------------------------------------
-- Response extractor and repairer (ask-doc/index.ts lines 145 to 343)
-- ---------------------------------------------------------------------------

/-- Source lines 145 to 151: trim, then peel a leading fence marker
(optionally labelled json) and a trailing fence marker. -/
def stripCodeFences (raw : List Char) : List Char :=
  let trimmed := jsTrim raw
  if startsWithL (S "```") trimmed then
    let afterOpen := trimmed.drop 3
    let afterLabel :=
      if startsWithL (S "json") afterOpen then afterOpen.drop 4 else afterOpen
    let noLead := afterLabel.dropWhile isJsSpace
    if (S "```").isSuffixOf noLead then
      dropTrailingWs (noLead.take (noLead.length - 3))
    else noLead
  else trimmed

/-- Source lines 153 to 160: substring from the first opening brace to the
last closing brace, inclusive. -/
def extractJsonObjectCandidate (text : List Char) : List Char :=
  match indexOfChar text '\x7b', lastIndexOfChar text '\x7d' with
  | some firstBrace, some lastBrace =>
    if lastBrace ≤ firstBrace then text
    else (text.take (lastBrace + 1)).drop firstBrace
  | _, _ => text

/-- Source lines 163 to 168, first replace: escaped single quotes become
plain single quotes. -/
def unescapeSingleQuotes : List Char → List Char
  | '\\' :: '\'' :: rest => '\'' :: unescapeSingleQuotes rest
  | c :: rest => c :: unescapeSingleQuotes rest
  | [] => []

/-- Source lines 163 to 168, second replace: every double quote gains a
backslash. -/
def expandQuotes : List Char → List Char
  | [] => []
  | '"' :: rest => '\\' :: '"' :: expandQuotes rest
  | c :: rest => c :: expandQuotes rest

/-- Source lines 163 to 168: content normalization for a single-quoted
token that is about to be wrapped in double quotes. -/
def normalizeSingleQuotedContent (l : List Char) : List Char :=
  expandQuotes (unescapeSingleQuotes l)

/-- The single-quoted content part of both repair regexes: characters
other than quote and backslash, with backslash always consuming the
following character.  Returns the raw content and the input after the
closing single quote. -/
def scanSingleQuoted : List Char → Option (List Char × List Char)
  | '\'' :: rest => some ([], rest)
  | '\\' :: c :: rest =>
    (scanSingleQuoted rest).map (fun p => ('\\' :: c :: p.1, p.2))
  | '\\' :: [] => none
  | c :: rest => (scanSingleQuoted rest).map (fun p => (c :: p.1, p.2))
  | [] => none

/-- One attempted match of the key-repair regex, positioned just after an
opening brace or comma.  Returns the replacement emitted after the
trigger character and the remaining input. -/
def tryKeyMatch (rest : List Char) : Option (List Char × List Char) :=
  let ws1 := rest.takeWhile isJsSpace
  match rest.dropWhile isJsSpace with
  | '\'' :: r2 =>
    (match scanSingleQuoted r2 with
     | none => none
     | some (content, r3) =>
       let ws2 := r3.takeWhile isJsSpace
       match r3.dropWhile isJsSpace with
       | ':' :: r5 =>
         some (ws1 ++ '"' :: (normalizeSingleQuotedContent content ++
           '"' :: (ws2 ++ [':'])), r5)
       | _ => none)
  | _ => none

/-- Global replace of the key-repair regex: left-to-right scan that
attempts a match at every opening brace or comma. -/
def repairKeysAux : Nat → List Char → List Char
  | 0, l => l
  | _ + 1, [] => []
  | fuel + 1, c :: rest =>
    if c = '\x7b' ∨ c = ',' then
      match tryKeyMatch rest with
      | some (rep, r5) => c :: (rep ++ repairKeysAux fuel r5)
      | none => c :: repairKeysAux fuel rest
    else c :: repairKeysAux fuel rest

/-- One attempted match of the value-repair regex, positioned just after a
colon. -/
def tryValueMatch (rest : List Char) : Option (List Char × List Char) :=
  let ws1 := rest.takeWhile isJsSpace
  match rest.dropWhile isJsSpace with
  | '\'' :: r2 =>
    (match scanSingleQuoted r2 with
     | none => none
     | some (content, r3) =>
       let ws2 := r3.takeWhile isJsSpace
       match r3.dropWhile isJsSpace with
       | b :: r5 =>
         if b = ',' ∨ b = '\x7d' ∨ b = ']' then
           some (ws1 ++ '"' :: (normalizeSingleQuotedContent content ++
             '"' :: (ws2 ++ [b])), r5)
         else none
       | [] => none)
  | _ => none

/-- Global replace of the value-repair regex. -/
def repairValuesAux : Nat → List Char → List Char
  | 0, l => l
  | _ + 1, [] => []
  | fuel + 1, c :: rest =>
    if c = ':' then
      match tryValueMatch rest with
      | some (rep, r5) => c :: (rep ++ repairValuesAux fuel r5)
      | none => c :: repairValuesAux fuel rest
    else c :: repairValuesAux fuel rest

/-- Source lines 162 to 181: the two global replaces in order. -/
def repairSingleQuotedJsonSyntax (input : List Char) : List Char :=
  let afterKeys := repairKeysAux (input.length + 1) input
  repairValuesAux (afterKeys.length + 1) afterKeys

/-- Source lines 183 to 214: decide whether a double quote inside a string
literal looks like a real terminator, from the input following it. -/
def isLikelyStringTerminator (rest : List Char) : Bool :=
  match rest.dropWhile isJsSpace with
  | [] => true
  | ':' :: _ => true
  | '\x7d' :: _ => true
  | ']' :: _ => true
  | ',' :: r2 =>
    (match r2.dropWhile isJsSpace with
     | [] => true
     | t :: _ =>
       t = '"' || t = '\x7b' || t = '[' || t = '\x7d' || t = ']' || t = '-' ||
       t.isDigit || t = 't' || t = 'f' || t = 'n')
  | _ => false

/-- Source lines 216 to 280: character scan escaping newlines, tabs and
content quotes inside string literals, closing a dangling literal at the
end of input. -/
def sanitizeAux : List Char → Bool → List Char
  | [], inString => if inString then ['"'] else []
  | c :: rest, false =>
    if c = '"' then c :: sanitizeAux rest true
    else c :: sanitizeAux rest false
  | c :: rest, true =>
    if c = '\\' then
      match rest with
      | [] => ['"']
      | d :: rest2 => '\\' :: d :: sanitizeAux rest2 true
    else if c = '\n' then '\\' :: 'n' :: sanitizeAux rest true
    else if c = '\r' then sanitizeAux rest true
    else if c = '\t' then '\\' :: 't' :: sanitizeAux rest true
    else if c = '"' then
      if isLikelyStringTerminator rest then '"' :: sanitizeAux rest false
      else '\\' :: '"' :: sanitizeAux rest true
    else c :: sanitizeAux rest true

/-- Source lines 216 to 280, entry point. -/
def sanitizeJsonStrings (input : List Char) : List Char :=
  sanitizeAux input false

/-- Source line 330: global replace removing a comma that directly
precedes (up to whitespace) a closing bracket. -/
def removeTrailingCommasAux : Nat → List Char → List Char
  | 0, l => l
  | _ + 1, [] => []
  | fuel + 1, c :: rest =>
    if c = ',' then
      match rest.dropWhile isJsSpace with
      | b :: r2 =>
        if b = '\x7d' ∨ b = ']' then b :: removeTrailingCommasAux fuel r2
        else c :: removeTrailingCommasAux fuel rest
      | [] => c :: removeTrailingCommasAux fuel rest
    else c :: removeTrailingCommasAux fuel rest

/-- Source line 330, entry point. -/
def removeTrailingCommas (l : List Char) : List Char :=
  removeTrailingCommasAux (l.length + 1) l

/-- Source lines 302 to 308: truncation heuristic over the cleaned
candidate. -/
def looksLikeTruncatedJson (text : List Char) : Bool :=
  let candidate := jsTrim (extractJsonObjectCandidate (stripCodeFences text))
  if candidate.isEmpty then true
  else
    let openBraces := candidate.count '\x7b'
    let closeBraces := candidate.count '\x7d'
    !(decide (candidate.getLast? = some '\x7d')) || decide (closeBraces < openBraces)

/-- Source lines 310 to 343: strict parse of the cleaned candidate, then
the repair pipeline, with none when both parses fail. -/
def extractJson (raw : List Char) : Option Json :=
  let cleaned := extractJsonObjectCandidate (stripCodeFences raw)
  match jsonParse cleaned with
  | some v => some v
  | none =>
    jsonParse (removeTrailingCommas
      (sanitizeJsonStrings (repairSingleQuotedJsonSyntax cleaned)))

-- ---------------------------------------------------------------------------
-- callGemini retry policy (ask-doc/index.ts lines 345 to 430)
-- ---------------------------------------------------------------------------

/-- Outcome of one generateContent attempt: nullable text and nullable
finish reason. -/
structure GAttempt where
  rawText : Option (List Char)
  finishReason : Option (List Char)

/-- JavaScript truthiness of a nullable string: present and non-empty. -/
def truthyText : Option (List Char) → Bool
  | none => false
  | some s => !s.isEmpty

/-- The shape validation of callGemini lines 421 to 427: answer and
reasoning are strings and evidence underscore for is an array. -/
def validShape (j : Json) : Bool :=
  (match j.getField (S "answer") with
   | some v => v.isStr
   | none => false) &&
  (match j.getField (S "reasoning") with
   | some v => v.isStr
   | none => false) &&
  (match j.getField (S "evidence_for") with
   | some v => v.isArr
   | none => false)

/-- Tail of callGemini, source lines 400 to 418: the truthiness check on
the text, the parse, and the final MAX_TOKENS retry at 12288. -/
def callGeminiParsePhase (oracle : Nat → GAttempt) (rawText : Option (List Char))
    (finishReason : Option (List Char)) (budgets : List Nat) :
    List Nat × Option Json :=
  if !(truthyText rawText) then (budgets, none)
  else
    match extractJson (rawText.getD []) with
    | some parsed => (budgets, if validShape parsed then some parsed else none)
    | none =>
      if finishReason == some (S "MAX_TOKENS") then
        let a3 := oracle 3
        let budgets3 := budgets ++ [12288]
        if !(truthyText a3.rawText) then (budgets3, none)
        else
          match extractJson (a3.rawText.getD []) with
          | some parsed =>
            (budgets3, if validShape parsed then some parsed else none)
          | none => (budgets3, none)
      else (budgets, none)

/-- Model of callGemini: the oracle gives the outcome of attempt 1, 2, 3
(budgets 4096, 8192, 12288).  Returns the list of output-token budgets
actually requested together with the parsed response, none standing for a
thrown error. -/
def callGeminiModel (oracle : Nat → GAttempt) : List Nat × Option Json :=
  let a1 := oracle 1
  if truthyText a1.rawText &&
      (a1.finishReason == some (S "MAX_TOKENS")) &&
      looksLikeTruncatedJson (a1.rawText.getD []) then
    let a2 := oracle 2
    callGeminiParsePhase oracle a2.rawText a2.finishReason [4096, 8192]
  else
    callGeminiParsePhase oracle a1.rawText a1.finishReason [4096]

-- ---------------------------------------------------------------------------
-- Request handler orchestration (ask-doc/index.ts lines 477 to 542)
-- ---------------------------------------------------------------------------

/-- A parsed model response as the handler sees it after callGemini:
answer, reasoning and evidence underscore for are guaranteed by the shape
check, the remaining fields may be missing or ill-typed (modelled with
Option). -/
structure RawAnswer where
  answer : List Char
  reasoning : List Char
  confidence : Option (List Char)
  evidence_for : List EvidenceItem
  evidence_against : Option (List EvidenceItem)
  missing_info : Option (List (List Char))
deriving DecidableEq, Repr

/-- The response finally serialized to the client. -/
structure AnswerOut where
  answer : List Char
  reasoning : List Char
  confidence : List Char
  evidence_for : List EvidenceItem
  evidence_against : List EvidenceItem
  missing_info : List (List Char)
deriving DecidableEq, Repr

/-- Source lines 530 to 542: lowercase the confidence and coerce it into
the three-value enum, defaulting to medium. -/
def normalizeConfidence (confidence : Option (List Char)) : List Char :=
  match confidence with
  | some s =>
    let c := mapToLower s
    if c = S "low" ∨ c = S "medium" ∨ c = S "high" then c else S "medium"
  | none => S "medium"

/-- Source lines 523 to 542: terminal normalization of the response. -/
def finalizeAnswer (r : RawAnswer) : AnswerOut :=
  { answer := r.answer
    reasoning := r.reasoning
    confidence := normalizeConfidence r.confidence
    evidence_for := r.evidence_for
    evidence_against := r.evidence_against.getD []
    missing_info := r.missing_info.getD [] }

/-- Source lines 504 to 521: the strict retry leg.  Its callGemini result
is the second oracle value; none models a thrown error, answered with
status 502. -/
def strictLeg (strict : Option RawAnswer) (pages : List PageInput) : Option AnswerOut :=
  match strict with
  | none => none
  | some r2 =>
    some (finalizeAnswer
      { r2 with
        evidence_for := filterEvidence r2.evidence_for pages
        evidence_against := some (filterEvidence (r2.evidence_against.getD []) pages) })

/-- Model of the POST handler after input validation, lines 477 to 542.
The two oracle arguments are the outcomes of the non-strict and the
strict callGemini invocation; none models a thrown error.  Returns the
list of strictness flags of the callGemini invocations actually issued,
and the response (none standing for an error response). -/
def handleAskDoc (first strict : Option RawAnswer) (pages : List PageInput) :
    List Bool × Option AnswerOut :=
  match first with
  | none => ([false, true], strictLeg strict pages)
  | some r =>
    let verifiedFor := filterEvidence r.evidence_for pages
    let verifiedAgainst := filterEvidence (r.evidence_against.getD []) pages
    if verifiedFor.length < r.evidence_for.length then
      ([false, true], strictLeg strict pages)
    else
      ([false],
        some (finalizeAnswer
          { r with
            evidence_for := verifiedFor
            evidence_against := some verifiedAgainst }))

-- ---------------------------------------------------------------------------
-- Quote-to-region locator (PdfViewerPane.tsx lines 490 to 711)
-- ---------------------------------------------------------------------------

/-- SpanEntry of PdfViewerPane.tsx lines 509 to 517; the DOM node is
replaced by the index of the originating span, and the JavaScript keyword
end is rendered as stop. -/
structure SpanEntryM where
  idx : Nat
  text : List Char
  compactText : List Char
  start : Nat
  stop : Nat
  compactStart : Nat
  compactStop : Nat
deriving DecidableEq, Repr

/-- Source lines 501 to 507: alphanumeric runs of the quote, lowercased,
of length at least four, deduplicated in first-occurrence order, stably
sorted by descending length, capped to six. -/
def isAlnum (c : Char) : Bool :=
  ('a' ≤ c && c ≤ 'z') || ('A' ≤ c && c ≤ 'Z') || ('0' ≤ c && c ≤ '9')

/-- Maximal alphanumeric runs, in order (the global match of the
alphanumeric regex). -/
def alnumRuns (l : List Char) : List (List Char) :=
  match l with
  | [] => []
  | c :: rest =>
    if isAlnum c then
      (c :: rest.takeWhile isAlnum) :: alnumRuns (rest.dropWhile isAlnum)
    else alnumRuns rest
termination_by l.length
decreasing_by
  · simp only [List.length_cons, Nat.lt_succ_iff]
    exact (List.dropWhile_suffix _).sublist.length_le
  · simp

/-- Set-insertion dedup preserving first-occurrence order. -/
def dedupFirst (l : List (List Char)) : List (List Char) :=
  go l []
where
  go : List (List Char) → List (List Char) → List (List Char)
    | [], _ => []
    | x :: rest, seen =>
      if x ∈ seen then go rest seen else x :: go rest (x :: seen)

/-- Source lines 501 to 507. -/
def extractSignificantTokens (quote : List Char) : List (List Char) :=
  let deduped := dedupFirst
    (((alnumRuns quote).map mapToLower).filter (fun w => 4 ≤ w.length))
  (deduped.mergeSort (fun a b => b.length ≤ a.length)).take 6

/-- Source lines 623 to 659: build span entries from the text content of
the spans of the text layer, skipping whitespace-only spans, tracking
offsets into the space-joined and the compact concatenation. -/
def collectSpanEntries (texts : List (List Char)) : List SpanEntryM :=
  go texts 0 0 0
where
  go : List (List Char) → Nat → Nat → Nat → List SpanEntryM
    | [], _, _, _ => []
    | t :: ts, idx, combinedLength, compactLength =>
      let text := mapToLower (normalizeWhitespace t)
      if text.isEmpty then go ts (idx + 1) combinedLength compactLength
      else
        let compactText := removeWhitespace text
        if compactText.isEmpty then go ts (idx + 1) combinedLength compactLength
        else
          { idx := idx
            text := text
            compactText := compactText
            start := combinedLength
            stop := combinedLength + text.length
            compactStart := compactLength
            compactStop := compactLength + compactText.length } ::
          go ts (idx + 1) (combinedLength + text.length + 1)
            (compactLength + compactText.length)

/-- Join with a single space (Array.prototype.join with a space). -/
def joinSp : List (List Char) → List Char
  | [] => []
  | [t] => t
  | t :: ts => t ++ ' ' :: joinSp ts

/-- Successive match positions of the while loop over indexOf in the
token fallback of findMatchingEntries (lines 693 to 708); the fuel covers
one iteration per remaining character. -/
def tokenPositions : Nat → List Char → List Char → Nat → List Nat
  | 0, _, _, _ => []
  | fuel + 1, hay, tok, base =>
    if tok.isEmpty then []
    else
      match indexOfL hay tok with
      | none => []
      | some i =>
        (base + i) ::
          tokenPositions fuel (hay.drop (i + tok.length)) tok
            (base + i + tok.length)

/-- Source lines 661 to 711: exact stage on the space-joined text, compact
stage on the whitespace-stripped text, then the token fallback collecting
a set in insertion order. -/
def findMatchingEntries (entries : List SpanEntryM) (normalizedQuote : List Char) :
    List SpanEntryM :=
  if normalizedQuote.isEmpty then []
  else
    let combinedText := joinSp (entries.map (fun e => e.text))
    let compactText := (entries.map (fun e => e.compactText)).flatten
    match indexOfL combinedText normalizedQuote with
    | some exactMatchStart =>
      let exactMatchEnd := exactMatchStart + normalizedQuote.length
      entries.filter (fun e =>
        decide (exactMatchStart < e.stop) && decide (e.start < exactMatchEnd))
    | none =>
      let compactQuote := removeWhitespace normalizedQuote
      match indexOfL compactText compactQuote with
      | some compactMatchStart =>
        let compactMatchEnd := compactMatchStart + compactQuote.length
        entries.filter (fun e =>
          decide (compactMatchStart < e.compactStop) &&
          decide (e.compactStart < compactMatchEnd))
      | none =>
        let tokens := extractSignificantTokens normalizedQuote
        if tokens.isEmpty then []
        else
          let withDirect := entries.filter
            (fun e => tokens.any (fun tok => listIncludes e.text tok))
          let compactTokens := (tokens.map removeWhitespace).filter
            (fun tok => !tok.isEmpty)
          let withCompact := compactTokens.foldl
            (fun acc tok =>
              (tokenPositions (compactText.length + 1) compactText tok 0).foldl
                (fun acc2 tokenStart =>
                  acc2 ++ (entries.filter (fun e =>
                    decide (tokenStart < e.compactStop) &&
                    decide (e.compactStart < tokenStart + tok.length))).filter
                    (fun e => !(acc2.contains e)))
                acc)
            withDirect
          withCompact

/-- Source lines 839 to 879 (buildHighlightForQuote): normalize and
lowercase the quote, then match against the collected entries. -/
def locateQuote (spanTexts : List (List Char)) (quote : List Char) : List SpanEntryM :=
  findMatchingEntries (collectSpanEntries spanTexts)
    (mapToLower (normalizeWhitespace quote))

-- ---------------------------------------------------------------------------
-- Lemmas: includes decides substring containment
-- ---------------------------------------------------------------------------

/-- startsWithL decides list prefixhood. -/
theorem startsWithL_iff_eq_true {needle hay : List Char} :
    startsWithL needle hay = true ↔ needle <+: hay := by
  simp [startsWithL]

/-- listIncludes decides contiguous-substring containment. -/
theorem listIncludes_iff_eq_true {hay needle : List Char} :
    listIncludes hay needle = true ↔ needle <:+: hay := by
  induction hay with
  | nil =>
    rw [listIncludes]
    by_cases hs : startsWithL needle [] = true
    · simp only [hs, if_true, true_iff]
      exact (startsWithL_iff_eq_true.mp hs).isInfix
    · rw [if_neg hs]
      constructor
      · intro h
        cases h
      · intro h
        have hnil : needle = [] := List.infix_nil.mp h
        subst hnil
        have hpre : ([] : List Char) <+: [] := List.nil_prefix
        exact absurd (startsWithL_iff_eq_true.mpr hpre) hs
  | cons a t ih =>
    rw [listIncludes]
    by_cases hs : startsWithL needle (a :: t) = true
    · simp only [hs, if_true, true_iff]
      exact (startsWithL_iff_eq_true.mp hs).isInfix
    · rw [if_neg hs, ih, List.infix_cons_iff]
      constructor
      · exact Or.inr
      · rintro (hpre | hinf)
        · exact absurd (startsWithL_iff_eq_true.mpr hpre) hs
        · exact hinf

-- ---------------------------------------------------------------------------
-- Claim C1: the quote verifier
-- ---------------------------------------------------------------------------

/-- Claim C1, counterexample: with two records for the same page number,
verifyQuote consults only the first matching record, so it can return
false although some record with that page number does contain the
normalized quote. -/
theorem c1_counterexample :
    verifyQuote [⟨1, S "a"⟩, ⟨1, S "b"⟩] 1 (S "b") = false ∧
    ∃ pd ∈ [(⟨1, S "a"⟩ : PageInput), ⟨1, S "b"⟩], pd.page = 1 ∧
      normalizeWhitespace (S "b") <:+: normalizeWhitespace pd.text := by
  refine ⟨by decide, ⟨⟨1, S "b"⟩, by simp, rfl, List.infix_refl _⟩⟩

/-- Claim C1 (amended): provided the page numbers of the page list are
pairwise distinct, as the data model stipulates, verifyQuote returns true
exactly when the record carrying the requested page number exists and the
whitespace-normalized quote is a case-sensitive substring of the
whitespace-normalized text of that record; in particular it returns false
when no record with that number exists. -/
theorem c1_verifyQuote_iff (pages : List PageInput) (p : Int) (q : List Char)
    (hdist : pages.Pairwise (fun a b => a.page ≠ b.page)) :
    verifyQuote pages p q = true ↔
      ∃ pd ∈ pages, pd.page = p ∧
        normalizeWhitespace q <:+: normalizeWhitespace pd.text := by
  induction pages with
  | nil => simp [verifyQuote]
  | cons pd0 rest ih =>
    rw [List.pairwise_cons] at hdist
    obtain ⟨hhead, htail⟩ := hdist
    by_cases hp : pd0.page = p
    · rw [verifyQuote, List.find?_cons_of_pos _ (by simp [hp])]
      constructor
      · intro h
        exact ⟨pd0, List.mem_cons_self _ _, hp, listIncludes_iff_eq_true.mp h⟩
      · rintro ⟨pd, hmem, hpage, hinf⟩
        rcases List.mem_cons.mp hmem with heq | hmem'
        · subst heq
          exact listIncludes_iff_eq_true.mpr hinf
        · exact absurd (hpage.trans hp.symm) (fun he => hhead pd hmem' (he.symm))
    · rw [verifyQuote, List.find?_cons_of_neg _ (by simp [hp])]
      rw [show (match List.find? (fun pd => pd.page == p) rest with
        | none => false
        | some pageData =>
          listIncludes (normalizeWhitespace pageData.text)
            (normalizeWhitespace q)) = verifyQuote rest p q from rfl]
      rw [ih htail]
      constructor
      · rintro ⟨pd, hmem, hpage, hinf⟩
        exact ⟨pd, List.mem_cons_of_mem _ hmem, hpage, hinf⟩
      · rintro ⟨pd, hmem, hpage, hinf⟩
        rcases List.mem_cons.mp hmem with heq | hmem'
        · subst heq
          exact absurd hpage hp
        · exact ⟨pd, hmem', hpage, hinf⟩

/-- Claim C1, witness: the amended statement applied to a concrete
two-page document. -/
theorem c1_witness :
    verifyQuote [⟨1, S "hello"⟩, ⟨2, S "world"⟩] 2 (S "world") = true :=
  (c1_verifyQuote_iff [⟨1, S "hello"⟩, ⟨2, S "world"⟩] 2 (S "world")
      (by decide)).mpr
    ⟨⟨2, S "world"⟩, by simp, rfl, List.infix_refl _⟩

-- ---------------------------------------------------------------------------
-- Claims C2 and C6: the evidence filter
-- ---------------------------------------------------------------------------

set_option maxRecDepth 8000

/-- Claim C2, counterexample.  First: the ask-openAI filter bounds the raw
quote length, not the normalized one, so an item whose raw quote has 181
characters but normalizes to a single character is dropped although it
satisfies every constraint of the claim (non-empty normalized quote of
length at most 180, positive page, verified quote).  Second: the ask-doc
filter applies no item-level constraints at all and keeps an item with an
empty quote. -/
theorem c2_counterexample :
    (filterEvidenceMax [⟨1, 'a' :: List.replicate 180 ' ', []⟩] [⟨1, S "a"⟩] 3 = [] ∧
     normalizeWhitespace ('a' :: List.replicate 180 ' ') ≠ [] ∧
     (normalizeWhitespace ('a' :: List.replicate 180 ' ')).length ≤ 180 ∧
     ((0 : Int) < 1) ∧
     verifyQuote [⟨1, S "a"⟩] 1 ('a' :: List.replicate 180 ' ') = true) ∧
    filterEvidence [⟨1, [], []⟩] [⟨1, S "a"⟩] = [⟨1, [], []⟩] := by
  refine ⟨⟨by decide, by decide, by decide, by decide, by decide⟩, by decide⟩

/-- Claim C2 (amended): the ask-openAI evidence filter keeps, in their
original relative order, exactly the items that verify and satisfy the
item-level constraints with the raw (pre-normalization) quote length
bounded by 180 and a positive page, truncated to the maxEvidence bound;
the ask-doc variant applies only the Verifier, with no item-level
constraints and no truncation. -/
theorem c2_filter_amended (items : List EvidenceItem) (pages : List PageInput)
    (n : Nat) :
    List.Sublist (filterEvidenceMax items pages n) items ∧
    (filterEvidenceMax items pages n).length ≤ n ∧
    (∀ item ∈ filterEvidenceMax items pages n,
      0 < item.page ∧ item.quote ≠ [] ∧ item.quote.length ≤ 180 ∧
      verifyQuote pages item.page item.quote = true) ∧
    ((items.filter
        (fun i => isEvidenceItem i && verifyQuote pages i.page i.quote)).length ≤ n →
      ∀ item ∈ items, isEvidenceItem item = true →
        verifyQuote pages item.page item.quote = true →
        item ∈ filterEvidenceMax items pages n) ∧
    List.Sublist (filterEvidence items pages) items ∧
    (∀ item ∈ filterEvidence items pages,
      verifyQuote pages item.page item.quote = true) ∧
    (∀ item ∈ items, verifyQuote pages item.page item.quote = true →
      item ∈ filterEvidence items pages) := by
  refine ⟨?_, ?_, ?_, ?_, ?_, ?_, ?_⟩
  · exact (List.take_sublist _ _).trans (List.filter_sublist _)
  · calc (filterEvidenceMax items pages n).length
        = (List.take n (items.filter _)).length := rfl
      _ ≤ n := by
          rw [List.length_take]
          exact Nat.min_le_left _ _
  · intro item hmem
    have hmem' := List.mem_of_mem_take hmem
    have hp := List.mem_filter.mp hmem'
    have hb := hp.2
    simp only [Bool.and_eq_true, isEvidenceItem, decide_eq_true_eq] at hb
    obtain ⟨⟨⟨hpage, hlen⟩, hle⟩, hv⟩ := hb
    refine ⟨hpage, ?_, hle, hv⟩
    intro hnil
    rw [hnil] at hlen
    exact absurd hlen (by simp)
  · intro hlen item hmem hitem hverify
    unfold filterEvidenceMax
    rw [List.take_of_length_le hlen]
    exact List.mem_filter.mpr ⟨hmem, by simp [hitem, hverify]⟩
  · exact List.filter_sublist _
  · intro item hmem
    exact (List.mem_filter.mp hmem).2
  · intro item hmem hverify
    exact List.mem_filter.mpr ⟨hmem, hverify⟩

/-- Claim C2, witness: the amended statement applied to a singleton list
whose item passes every check. -/
theorem c2_witness :
    (⟨1, S "a", []⟩ : EvidenceItem) ∈
      filterEvidenceMax [⟨1, S "a", []⟩] [⟨1, S "a"⟩] 3 :=
  (c2_filter_amended [⟨1, S "a", []⟩] [⟨1, S "a"⟩] 3).2.2.2.1
    (by decide) ⟨1, S "a", []⟩ (by simp) (by decide) (by decide)

/-- Claim C6: both evidence filters return an order-preserving
subsequence of their input, and both are idempotent for a fixed page list
(and, for the ask-openAI variant, a fixed evidence cap). -/
theorem c6_filter_subsequence_idempotent (items : List EvidenceItem)
    (pages : List PageInput) (n : Nat) :
    List.Sublist (filterEvidence items pages) items ∧
    filterEvidence (filterEvidence items pages) pages = filterEvidence items pages ∧
    List.Sublist (filterEvidenceMax items pages n) items ∧
    filterEvidenceMax (filterEvidenceMax items pages n) pages n =
      filterEvidenceMax items pages n := by
  refine ⟨List.filter_sublist _, ?_, (List.take_sublist _ _).trans (List.filter_sublist _), ?_⟩
  · exact List.filter_eq_self.mpr (fun a ha => (List.mem_filter.mp ha).2)
  · unfold filterEvidenceMax
    have hfil : (List.take n (items.filter
        (fun item => isEvidenceItem item && verifyQuote pages item.page item.quote))).filter
        (fun item => isEvidenceItem item && verifyQuote pages item.page item.quote) =
        List.take n (items.filter
          (fun item => isEvidenceItem item && verifyQuote pages item.page item.quote)) :=
      List.filter_eq_self.mpr
        (fun a ha => (List.mem_filter.mp (List.mem_of_mem_take ha)).2)
    rw [hfil]
    exact List.take_of_length_le (by rw [List.length_take]; exact Nat.min_le_left _ _)

-- ---------------------------------------------------------------------------
-- Claim C3: one-shot strict escalation
-- ---------------------------------------------------------------------------

/-- Claim C3: the handler issues the strict retry exactly when the first
call fails or the verification filter drops at least one evidence_for
item; the filtering of evidence_against never affects escalation (the
escalation condition mentions evidence_for only); at most one strict call
is ever issued, and after a successful strict pass the filtered strict
response is returned as final with no further request. -/
theorem c3_escalation (first strict : Option RawAnswer) (pages : List PageInput) :
    ((handleAskDoc first strict pages).1 = [false] ∨
     (handleAskDoc first strict pages).1 = [false, true]) ∧
    (handleAskDoc first strict pages).1.count true ≤ 1 ∧
    ((handleAskDoc first strict pages).1 = [false, true] ↔
      first = none ∨ ∃ r, first = some r ∧
        (filterEvidence r.evidence_for pages).length < r.evidence_for.length) ∧
    (∀ r2, (handleAskDoc first strict pages).1 = [false, true] →
      strict = some r2 →
      (handleAskDoc first strict pages).2 = some (finalizeAnswer
        { r2 with
          evidence_for := filterEvidence r2.evidence_for pages
          evidence_against :=
            some (filterEvidence (r2.evidence_against.getD []) pages) })) := by
  cases first with
  | none =>
    refine ⟨Or.inr rfl, by simp [handleAskDoc], ?_, ?_⟩
    · simp [handleAskDoc]
    · intro r2 _ hstrict
      subst hstrict
      simp [handleAskDoc, strictLeg]
  | some r =>
    by_cases hdrop :
        (filterEvidence r.evidence_for pages).length < r.evidence_for.length
    · refine ⟨Or.inr ?_, ?_, ?_, ?_⟩
      · simp [handleAskDoc, hdrop]
      · simp [handleAskDoc, hdrop]
      · simp only [handleAskDoc, if_pos hdrop]
        constructor
        · intro _
          exact Or.inr ⟨r, rfl, hdrop⟩
        · intro _
          trivial
      · intro r2 _ hstrict
        subst hstrict
        simp [handleAskDoc, hdrop, strictLeg]
    · refine ⟨Or.inl ?_, ?_, ?_, ?_⟩
      · simp [handleAskDoc, hdrop]
      · simp [handleAskDoc, hdrop]
      · simp only [handleAskDoc, if_neg hdrop]
        constructor
        · intro h
          cases h
        · rintro (h | ⟨r', hr', hdrop'⟩)
          · cases h
          · rw [Option.some_inj] at hr'
            subst hr'
            exact absurd hdrop' hdrop
      · intro r2 htrace
        rw [show (handleAskDoc (some r) strict pages).1 = [false] by
          simp [handleAskDoc, hdrop]] at htrace
        cases htrace

/-- Claim C3, witness: a failed first call with a successful strict call
produces the trace with exactly one strict retry and the filtered strict
answer. -/
theorem c3_witness :
    (handleAskDoc none (some ⟨S "a", S "r", some (S "low"), [], none, none⟩)
        []).2 =
      some (finalizeAnswer
        { answer := S "a", reasoning := S "r", confidence := some (S "low"),
          evidence_for := filterEvidence [] [],
          evidence_against := some (filterEvidence [] []),
          missing_info := none }) :=
  (c3_escalation none (some ⟨S "a", S "r", some (S "low"), [], none, none⟩)
      []).2.2.2 ⟨S "a", S "r", some (S "low"), [], none, none⟩
    ((c3_escalation none (some ⟨S "a", S "r", some (S "low"), [], none, none⟩)
        []).2.2.1.mpr (Or.inl rfl)) rfl

-- ---------------------------------------------------------------------------
-- Claim C4: larger-budget retries of callGemini
-- ---------------------------------------------------------------------------

/-- Claim C4, counterexample: when every attempt answers with the single
character opening brace and finish reason MAX_TOKENS, the call issues the
4096-token attempt and then two larger-budget re-issues (8192 after the
truncation heuristic, 12288 after the parse failure), contradicting the
claim that no more than one larger-budget re-issue occurs per model
call. -/
theorem c4_counterexample :
    (callGeminiModel
        (fun _ => ⟨some (S "\x7b"), some (S "MAX_TOKENS")⟩)).1 =
      [4096, 8192, 12288] := by
  decide

/-- The parse phase either keeps the budgets it was given or appends the
single final 12288 re-issue. -/
theorem callGeminiParsePhase_budgets (oracle : Nat → GAttempt)
    (rawText finishReason : Option (List Char)) (budgets : List Nat) :
    (callGeminiParsePhase oracle rawText finishReason budgets).1 = budgets ∨
    (callGeminiParsePhase oracle rawText finishReason budgets).1 =
      budgets ++ [12288] := by
  unfold callGeminiParsePhase
  cases htr : truthyText rawText with
  | false => exact Or.inl rfl
  | true =>
    simp only [Bool.not_true, Bool.false_eq_true, if_false]
    cases hE : extractJson (rawText.getD []) with
    | some parsed => exact Or.inl rfl
    | none =>
      cases hf : finishReason == some (S "MAX_TOKENS") with
      | false => simp
      | true =>
        simp only [if_true]
        cases htr3 : truthyText (oracle 3).rawText with
        | false => simp
        | true =>
          simp only [Bool.not_true, Bool.false_eq_true, if_false]
          cases hE3 : extractJson ((oracle 3).rawText.getD []) with
          | some parsed => exact Or.inr rfl
          | none => exact Or.inr rfl

/-- The parse phase leaves the given budgets untouched whenever the
12288 retry condition is not met; only four budget traces are
reachable. -/
theorem c4_budgets_amended (oracle : Nat → GAttempt) :
    ((callGeminiModel oracle).1 = [4096] ∨
     (callGeminiModel oracle).1 = [4096, 8192] ∨
     (callGeminiModel oracle).1 = [4096, 12288] ∨
     (callGeminiModel oracle).1 = [4096, 8192, 12288]) ∧
    (callGeminiModel oracle).1.length ≤ 3 ∧
    (((8192 : Nat) ∈ (callGeminiModel oracle).1) ↔
      (truthyText (oracle 1).rawText &&
        ((oracle 1).finishReason == some (S "MAX_TOKENS")) &&
        looksLikeTruncatedJson ((oracle 1).rawText.getD [])) = true) := by
  unfold callGeminiModel
  cases h1 : truthyText (oracle 1).rawText &&
      ((oracle 1).finishReason == some (S "MAX_TOKENS")) &&
      looksLikeTruncatedJson ((oracle 1).rawText.getD []) with
  | true =>
    simp only [h1, if_true]
    rcases callGeminiParsePhase_budgets oracle (oracle 2).rawText
        (oracle 2).finishReason [4096, 8192] with h | h
    · rw [h]
      refine ⟨Or.inr (Or.inl rfl), by simp, by simp⟩
    · rw [h]
      refine ⟨Or.inr (Or.inr (Or.inr rfl)), by simp, by simp⟩
  | false =>
    simp only [h1, Bool.false_eq_true, if_false]
    rcases callGeminiParsePhase_budgets oracle (oracle 1).rawText
        (oracle 1).finishReason [4096] with h | h
    · rw [h]
      refine ⟨Or.inl rfl, by simp, by simp⟩
    · rw [h]
      refine ⟨Or.inr (Or.inr (Or.inl rfl)), by simp, by simp⟩

-- ---------------------------------------------------------------------------
-- Claim C7: repair of fenced single-quoted output
-- ---------------------------------------------------------------------------

/-- The raw model output of the repair scenario: a json-labelled fence
wrapping an object with single-quoted keys and values, the answer value
containing embedded double quotes. -/
def c7raw : List Char :=
  S "```json\n\x7b\x27answer\x27: \x27He said \"hi\"\x27, \x27reasoning\x27:\x27ok\x27,\x27confidence\x27:\x27high\x27,\x27evidence_for\x27:[],\x27evidence_against\x27:[],\x27missing_info\x27:[]\x7d\n```"

/-- Claim C7: the strict parse of the cleaned candidate fails, extractJson
still succeeds through the repair pipeline, and the recovered object has
the answer field He said "hi" with the embedded double quotes
preserved. -/
theorem c7_extract_repairs :
    jsonParse (extractJsonObjectCandidate (stripCodeFences c7raw)) = none ∧
    (extractJson c7raw).isSome = true ∧
    (extractJson c7raw).bind (fun j => j.getField (S "answer")) =
      some (Json.str (S "He said \"hi\"")) :=
  ⟨rfl, rfl, rfl⟩

-- ---------------------------------------------------------------------------
-- Claim C9: locator compact-match scenario
-- ---------------------------------------------------------------------------

/-- The two adjacent spans of the locator scenario. -/
def c9spans : List (List Char) := [S "the baseline impro", S "ves by 15%"]

/-- The quote split across the two spans. -/
def c9quote : List Char := S "the baseline improves by 15%"

/-- Claim C9: the exact stage fails on the space-joined span text, the
compact stage matches the whitespace-stripped quote at offset zero of the
whitespace-stripped concatenation, and the selected entries are exactly
the two collected spans, in order. -/
theorem c9_locator_compact_match :
    indexOfL (joinSp ((collectSpanEntries c9spans).map (fun e => e.text)))
      (mapToLower (normalizeWhitespace c9quote)) = none ∧
    indexOfL ((collectSpanEntries c9spans).map (fun e => e.compactText)).flatten
      (removeWhitespace (mapToLower (normalizeWhitespace c9quote))) = some 0 ∧
    locateQuote c9spans c9quote = collectSpanEntries c9spans ∧
    (collectSpanEntries c9spans).map (fun e => e.idx) = [0, 1] :=
  ⟨rfl, rfl, rfl, rfl⟩

-- ---------------------------------------------------------------------------
-- Claim C8: terminal normalization invariant
-- ---------------------------------------------------------------------------

/-- The confidence coercion always lands in the three-value enum. -/
theorem normalizeConfidence_cases (co : Option (List Char)) :
    normalizeConfidence co = S "low" ∨ normalizeConfidence co = S "medium" ∨
    normalizeConfidence co = S "high" := by
  cases co with
  | none => exact Or.inr (Or.inl rfl)
  | some s =>
    simp only [normalizeConfidence]
    by_cases h : mapToLower s = S "low" ∨ mapToLower s = S "medium" ∨
        mapToLower s = S "high"
    · rw [if_pos h]
      exact h
    · rw [if_neg h]
      exact Or.inr (Or.inl rfl)

/-- Claim C8: every response of the handler success path carries a
confidence from the three-value enum; a confidence string matching one of
the three values up to letter case is lowercased and any other or missing
value becomes medium; missing evidence_against and missing_info coerce to
empty lists. -/
theorem c8_terminal_normalization :
    (∀ first strict pages a, (handleAskDoc first strict pages).2 = some a →
      a.confidence = S "low" ∨ a.confidence = S "medium" ∨
        a.confidence = S "high") ∧
    (∀ s : List Char,
      ((mapToLower s = S "low" ∨ mapToLower s = S "medium" ∨
          mapToLower s = S "high") →
        normalizeConfidence (some s) = mapToLower s) ∧
      (¬(mapToLower s = S "low" ∨ mapToLower s = S "medium" ∨
          mapToLower s = S "high") →
        normalizeConfidence (some s) = S "medium")) ∧
    normalizeConfidence none = S "medium" ∧
    (∀ r : RawAnswer, r.evidence_against = none →
      (finalizeAnswer r).evidence_against = []) ∧
    (∀ r : RawAnswer, r.missing_info = none →
      (finalizeAnswer r).missing_info = []) := by
  have hconf : ∀ (a : AnswerOut) (r : RawAnswer),
      some (finalizeAnswer r) = some a →
      a.confidence = S "low" ∨ a.confidence = S "medium" ∨
        a.confidence = S "high" := by
    intro a r hr
    rw [Option.some_inj] at hr
    subst hr
    exact normalizeConfidence_cases r.confidence
  refine ⟨?_, ?_, rfl, ?_, ?_⟩
  · intro first strict pages a h
    cases first with
    | none =>
      cases strict with
      | none => exact absurd h (by simp [handleAskDoc, strictLeg])
      | some r2 => exact hconf a _ h
    | some r =>
      by_cases hdrop :
          (filterEvidence r.evidence_for pages).length < r.evidence_for.length
      · simp only [handleAskDoc] at h
        rw [if_pos hdrop] at h
        cases strict with
        | none => exact absurd h (by simp [strictLeg])
        | some r2 => exact hconf a _ h
      · simp only [handleAskDoc] at h
        rw [if_neg hdrop] at h
        exact hconf a _ h
  · intro s
    constructor
    · intro h
      simp only [normalizeConfidence]
      rw [if_pos h]
    · intro h
      simp only [normalizeConfidence]
      rw [if_neg h]
  · intro r h
    simp [finalizeAnswer, h]
  · intro r h
    simp [finalizeAnswer, h]

/-- Claim C8, witness: a first-pass response with confidence High and no
optional fields is returned with confidence in the enum (and the
computation shows it is the lowercased high). -/
theorem c8_witness :
    (handleAskDoc (some ⟨S "x", S "y", some (S "High"), [], none, none⟩)
        none []).2 =
      some ⟨S "x", S "y", S "high", [], [], []⟩ ∧
    ((S "high" : List Char) = S "low" ∨ (S "high" : List Char) = S "medium" ∨
      (S "high" : List Char) = S "high") :=
  ⟨rfl,
    c8_terminal_normalization.1
      (some ⟨S "x", S "y", some (S "High"), [], none, none⟩) none []
      ⟨S "x", S "y", S "high", [], [], []⟩ rfl⟩

-- ---------------------------------------------------------------------------
-- Claim C10: the locator is case-insensitive
-- ---------------------------------------------------------------------------

/-- Lowercasing does not change whether a character is whitespace. -/
theorem isJsSpace_charToLower (c : Char) :
    isJsSpace (charToLower c) = isJsSpace c := by
  unfold charToLower
  split <;> rfl

/-- Lowercasing commutes with the whitespace-collapsing pass. -/
theorem collapseAux_map (l : List Char) (b : Bool) :
    collapseAux b (mapToLower l) = mapToLower (collapseAux b l) := by
  induction l generalizing b with
  | nil => rfl
  | cons c rest ih =>
    cases hs : isJsSpace c with
    | true =>
      cases b with
      | true =>
        simp only [mapToLower, List.map_cons, collapseAux,
          isJsSpace_charToLower, hs, if_true]
        exact ih true
      | false =>
        simp only [mapToLower, List.map_cons, collapseAux,
          isJsSpace_charToLower, hs, if_true, Bool.false_eq_true, if_false]
        rw [show collapseAux true (List.map charToLower rest) =
          mapToLower (collapseAux true rest) from ih true]
        rfl
    | false =>
      cases b <;>
        · simp only [mapToLower, List.map_cons, collapseAux,
            isJsSpace_charToLower, hs, Bool.false_eq_true, if_false]
          rw [show collapseAux false (List.map charToLower rest) =
            mapToLower (collapseAux false rest) from ih false]
          rfl

/-- Lowercasing commutes with dropping leading whitespace. -/
theorem dropWhile_isJsSpace_map (l : List Char) :
    (mapToLower l).dropWhile isJsSpace = mapToLower (l.dropWhile isJsSpace) := by
  rw [mapToLower, List.dropWhile_map]
  have hp : (isJsSpace ∘ charToLower) = isJsSpace := by
    funext c
    exact isJsSpace_charToLower c
  rw [hp]
  rfl

/-- Lowercasing commutes with trimming. -/
theorem jsTrim_map (l : List Char) :
    jsTrim (mapToLower l) = mapToLower (jsTrim l) := by
  have hrev : ∀ m : List Char, (mapToLower m).reverse = mapToLower m.reverse :=
    fun m => (List.map_reverse charToLower m).symm
  unfold jsTrim dropTrailingWs
  rw [dropWhile_isJsSpace_map, hrev, dropWhile_isJsSpace_map, hrev]

/-- Lowercasing commutes with whitespace normalization. -/
theorem normalizeWhitespace_map (l : List Char) :
    normalizeWhitespace (mapToLower l) = mapToLower (normalizeWhitespace l) := by
  unfold normalizeWhitespace
  rw [collapseAux_map, jsTrim_map]

/-- Claim C10: quote-to-region location is case-insensitive; two quotes
that agree after lowercasing select exactly the same span entries, for
every span list. -/
theorem c10_locator_case_insensitive (spanTexts : List (List Char))
    (q1 q2 : List Char) (h : mapToLower q1 = mapToLower q2) :
    locateQuote spanTexts q1 = locateQuote spanTexts q2 := by
  unfold locateQuote
  rw [show mapToLower (normalizeWhitespace q1) =
      mapToLower (normalizeWhitespace q2) from by
    rw [← normalizeWhitespace_map, ← normalizeWhitespace_map, h]]

/-- Claim C10, witness: an uppercase and a lowercase rendering of the
same quote select the same entries of a concrete span list. -/
theorem c10_witness :
    mapToLower (S "HELLO") = mapToLower (S "hello") ∧
    locateQuote [S "say hello world"] (S "HELLO") =
      locateQuote [S "say hello world"] (S "hello") :=
  ⟨rfl, c10_locator_case_insensitive [S "say hello world"] (S "HELLO")
    (S "hello") rfl⟩

-- ---------------------------------------------------------------------------
-- Claim C5: whitespace-insensitive quote reconstruction
-- ---------------------------------------------------------------------------

/-- The words of a quote, fuelled: maximal runs of non-whitespace
characters, in order.  The fuel covers one step per character. -/
def wordsOfAux : Nat → List Char → List (List Char)
  | 0, _ => []
  | _ + 1, [] => []
  | fuel + 1, c :: rest =>
    if isJsSpace c then wordsOfAux fuel rest
    else
      (c :: rest.takeWhile (fun d => !(isJsSpace d))) ::
        wordsOfAux fuel (rest.dropWhile (fun d => !(isJsSpace d)))

/-- The words of a quote: maximal runs of non-whitespace characters, in
order. -/
def wordsOf (l : List Char) : List (List Char) := wordsOfAux (l.length + 1) l

/-- Rebuild a quote from its words, interleaving the given separator
strings between consecutive words. -/
def joinSeps : List (List Char) → List (List Char) → List Char
  | [], _ => []
  | [w], _ => w
  | w :: ws, [] => w ++ joinSeps ws []
  | w :: ws, s :: ss => w ++ (s ++ joinSeps ws ss)

/-- A list whose whitespace is exactly single space characters at
non-adjacent positions: the shape of any whitespace-normalized string. -/
def NormalizedShape (l : List Char) : Prop :=
  (∀ c ∈ l, isJsSpace c = true → c = ' ') ∧
  l.Chain' (fun a b => ¬(isJsSpace a = true ∧ isJsSpace b = true))

/-- Heads that fail the predicate stop dropWhile immediately. -/
theorem dropWhile_eq_self_of_head (p : Char → Bool) (l : List Char)
    (h : ∀ c ∈ l.head?, p c = false) : l.dropWhile p = l := by
  cases l with
  | nil => rfl
  | cons x t =>
    rw [List.dropWhile_cons, if_neg]
    rw [h x rfl]
    simp

/-- dropTrailingWs is the identity when the last character is not
whitespace. -/
theorem dropTrailingWs_eq_self (l : List Char)
    (h : ∀ c ∈ l.reverse.head?, isJsSpace c = false) : dropTrailingWs l = l := by
  unfold dropTrailingWs
  rw [dropWhile_eq_self_of_head _ _ h, List.reverse_reverse]

/-- dropTrailingWs reaches only into the last block that holds a
non-whitespace character. -/
theorem dropTrailingWs_append (x l : List Char) (c : Char) (hc : c ∈ l)
    (hcs : isJsSpace c = false) :
    dropTrailingWs (x ++ l) = x ++ dropTrailingWs l := by
  unfold dropTrailingWs
  rw [List.reverse_append, List.dropWhile_append]
  have hne : ¬(l.reverse.dropWhile isJsSpace).isEmpty = true := by
    intro hemp
    rw [List.isEmpty_iff] at hemp
    have hall := List.dropWhile_eq_nil_iff.mp hemp
    have := hall c (by rw [List.mem_reverse]; exact hc)
    rw [hcs] at this
    cases this
  rw [if_neg hne, List.reverse_append, List.reverse_reverse]

/-- The first character surviving dropWhile fails the predicate. -/
theorem head_dropWhile_false (p : Char → Bool) (l : List Char) :
    ∀ c ∈ (l.dropWhile p).head?, p c = false := by
  induction l with
  | nil => intro c hc; cases hc
  | cons x t ih =>
    intro c hc
    rw [List.dropWhile_cons] at hc
    by_cases hx : p x = true
    · rw [if_pos hx] at hc
      exact ih c hc
    · rw [if_neg hx] at hc
      cases hc
      exact Bool.not_eq_true _ ▸ (by simpa using hx)

/-- Whitespace in the output of the collapsing pass is a space
character. -/
theorem collapseAux_mem_space (l : List Char) (b : Bool) :
    ∀ c ∈ collapseAux b l, isJsSpace c = true → c = ' ' := by
  induction l generalizing b with
  | nil => intro c hc; cases hc
  | cons x t ih =>
    intro c hc hsp
    by_cases hx : isJsSpace x = true
    · rw [show collapseAux b (x :: t) =
          (if b then collapseAux true t else ' ' :: collapseAux true t) from by
        simp [collapseAux, hx]] at hc
      cases b with
      | true => exact ih true c (by simpa using hc) hsp
      | false =>
        simp only [if_false, Bool.false_eq_true] at hc
        rcases List.mem_cons.mp hc with rfl | hc'
        · rfl
        · exact ih true c hc' hsp
    · rw [show collapseAux b (x :: t) = x :: collapseAux false t from by
        simp [collapseAux, hx]] at hc
      rcases List.mem_cons.mp hc with rfl | hc'
      · rw [hsp] at hx
        cases hx rfl
      · exact ih false c hc' hsp

/-- After absorbing whitespace, the next emitted character is not
whitespace. -/
theorem collapseAux_true_head (l : List Char) :
    ∀ c ∈ (collapseAux true l).head?, isJsSpace c = false := by
  induction l with
  | nil => intro c hc; cases hc
  | cons x t ih =>
    intro c hc
    by_cases hx : isJsSpace x = true
    · rw [show collapseAux true (x :: t) = collapseAux true t from by
        simp [collapseAux, hx]] at hc
      exact ih c hc
    · rw [show collapseAux true (x :: t) = x :: collapseAux false t from by
        simp [collapseAux, hx]] at hc
      cases hc
      simpa using hx

/-- The collapsing pass never emits two adjacent whitespace
characters. -/
theorem collapseAux_chain' (l : List Char) (b : Bool) :
    (collapseAux b l).Chain'
      (fun a c => ¬(isJsSpace a = true ∧ isJsSpace c = true)) := by
  induction l generalizing b with
  | nil => simp [collapseAux]
  | cons x t ih =>
    by_cases hx : isJsSpace x = true
    · cases b with
      | true =>
        rw [show collapseAux true (x :: t) = collapseAux true t from by
          simp [collapseAux, hx]]
        exact ih true
      | false =>
        rw [show collapseAux false (x :: t) = ' ' :: collapseAux true t from by
          simp [collapseAux, hx]]
        rw [List.chain'_cons']
        refine ⟨?_, ih true⟩
        intro y hy
        have := collapseAux_true_head t y hy
        intro hcontra
        rw [hcontra.2] at this
        cases this
    · rw [show collapseAux b (x :: t) = x :: collapseAux false t from by
        simp [collapseAux, hx]]
      rw [List.chain'_cons']
      refine ⟨?_, ih false⟩
      intro y hy hcontra
      rw [hcontra.1] at hx
      cases hx rfl

/-- A chain restricted to a contiguous substring is a chain. -/
theorem chain'_of_isInfix {R : Char → Char → Prop} {l q : List Char}
    (h : List.Chain' R l) (hinf : q <:+: l) : List.Chain' R q := by
  obtain ⟨s, t, hst⟩ := hinf
  rw [← hst] at h
  exact (List.chain'_append.mp (List.chain'_append.mp h).1).2.1

/-- jsTrim returns a contiguous substring of its input. -/
theorem jsTrim_isInfix (l : List Char) : jsTrim l <:+: l := by
  unfold jsTrim dropTrailingWs
  have h1 : (l.dropWhile isJsSpace) <:+ l := List.dropWhile_suffix _
  have h2 : ((l.dropWhile isJsSpace).reverse.dropWhile isJsSpace).reverse <+:
      (l.dropWhile isJsSpace) := by
    have hs : (l.dropWhile isJsSpace).reverse.dropWhile isJsSpace <:+
        (l.dropWhile isJsSpace).reverse := List.dropWhile_suffix _
    have := List.reverse_prefix.mpr hs
    simpa using this
  exact h2.isInfix.trans h1.isInfix

/-- NormalizedShape restricts to contiguous substrings. -/
theorem normalizedShape_of_isInfix {l q : List Char} (h : NormalizedShape l)
    (hinf : q <:+: l) : NormalizedShape q :=
  ⟨fun c hc hsp => h.1 c (hinf.sublist.subset hc) hsp, chain'_of_isInfix h.2 hinf⟩

/-- The normalization of any string has NormalizedShape. -/
theorem normalizedShape_normalizeWhitespace (l : List Char) :
    NormalizedShape (normalizeWhitespace l) := by
  have hbase : NormalizedShape (collapseAux false l) :=
    ⟨collapseAux_mem_space l false, collapseAux_chain' l false⟩
  exact normalizedShape_of_isInfix hbase (jsTrim_isInfix _)

/-- With a non-whitespace head the run flag is irrelevant. -/
theorem collapseAux_true_eq_false (l : List Char)
    (h : ∀ c ∈ l.head?, isJsSpace c = false) :
    collapseAux true l = collapseAux false l := by
  cases l with
  | nil => rfl
  | cons x t =>
    have hx := h x rfl
    simp [collapseAux, hx]

/-- Collapsing is the identity on lists of NormalizedShape. -/
theorem collapseAux_eq_self (l : List Char) (h : NormalizedShape l) :
    collapseAux false l = l := by
  induction l with
  | nil => rfl
  | cons x t ih =>
    have htail : NormalizedShape t :=
      ⟨fun c hc => h.1 c (List.mem_cons_of_mem _ hc), (List.chain'_cons'.mp h.2).2⟩
    by_cases hx : isJsSpace x = true
    · have hx' : x = ' ' := h.1 x (List.mem_cons_self _ _) hx
      have hhead : ∀ c ∈ t.head?, isJsSpace c = false := by
        intro c hc
        have hrel := (List.chain'_cons'.mp h.2).1 c hc
        by_contra hcs
        exact hrel ⟨hx, by simpa using hcs⟩
      rw [show collapseAux false (x :: t) = ' ' :: collapseAux true t from by
        simp [collapseAux, hx]]
      rw [collapseAux_true_eq_false t hhead, ih htail, hx']
    · rw [show collapseAux false (x :: t) = x :: collapseAux false t from by
        simp [collapseAux, hx]]
      rw [ih htail]

/-- Collapsing walks through a non-empty all-black word unchanged. -/
theorem collapseAux_append_word (w rest : List Char) (b : Bool) (hw : w ≠ [])
    (hns : ∀ c ∈ w, isJsSpace c = false) :
    collapseAux b (w ++ rest) = w ++ collapseAux false rest := by
  induction w generalizing b with
  | nil => exact absurd rfl hw
  | cons x w' ih =>
    have hx : isJsSpace x = false := hns x (List.mem_cons_self _ _)
    rw [show collapseAux b ((x :: w') ++ rest) =
        x :: collapseAux false (w' ++ rest) from by simp [collapseAux, hx]]
    cases hw' : w' with
    | nil => simp
    | cons y w'' =>
      rw [← hw']
      rw [ih false (by rw [hw']; simp)
        (fun c hc => hns c (List.mem_cons_of_mem _ hc))]
      rfl

/-- In the absorbing state an all-whitespace block is skipped. -/
theorem collapseAux_true_append_sep (s rest : List Char)
    (hs : ∀ c ∈ s, isJsSpace c = true) :
    collapseAux true (s ++ rest) = collapseAux true rest := by
  induction s with
  | nil => rfl
  | cons x s' ih =>
    have hx := hs x (List.mem_cons_self _ _)
    rw [show collapseAux true ((x :: s') ++ rest) =
        collapseAux true (s' ++ rest) from by simp [collapseAux, hx]]
    exact ih (fun c hc => hs c (List.mem_cons_of_mem _ hc))

/-- In the copying state a non-empty all-whitespace block becomes one
space. -/
theorem collapseAux_false_append_sep (s rest : List Char) (hne : s ≠ [])
    (hs : ∀ c ∈ s, isJsSpace c = true) :
    collapseAux false (s ++ rest) = ' ' :: collapseAux true rest := by
  cases s with
  | nil => exact absurd rfl hne
  | cons x s' =>
    have hx := hs x (List.mem_cons_self _ _)
    rw [show collapseAux false ((x :: s') ++ rest) =
        ' ' :: collapseAux true (s' ++ rest) from by simp [collapseAux, hx]]
    rw [collapseAux_true_append_sep s' rest
      (fun c hc => hs c (List.mem_cons_of_mem _ hc))]

/-- Collapsing a words-and-separators interleaving produces the
single-space join of the words. -/
theorem collapseAux_joinSeps (ws seps : List (List Char)) (b : Bool)
    (hws : ws ≠ [])
    (hw : ∀ w ∈ ws, w ≠ [] ∧ ∀ c ∈ w, isJsSpace c = false)
    (hsep : ∀ s ∈ seps, s ≠ [] ∧ ∀ c ∈ s, isJsSpace c = true)
    (hlen : seps.length = ws.length - 1) :
    collapseAux b (joinSeps ws seps) = joinSp ws := by
  induction ws generalizing seps b with
  | nil => exact absurd rfl hws
  | cons w ws' ih =>
    cases ws' with
    | nil =>
      have hwp := hw w (List.mem_cons_self _ _)
      have hj : joinSeps [w] seps = w := by cases seps <;> rfl
      rw [hj]
      simpa [collapseAux, joinSp] using
        collapseAux_append_word w [] b hwp.1 hwp.2
    | cons w2 ws'' =>
      cases seps with
      | nil => simp at hlen
      | cons s ss =>
        have hwp := hw w (List.mem_cons_self _ _)
        have hsp := hsep s (List.mem_cons_self _ _)
        show collapseAux b (w ++ (s ++ joinSeps (w2 :: ws'') ss)) = _
        rw [collapseAux_append_word w _ b hwp.1 hwp.2]
        rw [collapseAux_false_append_sep s _ hsp.1 hsp.2]
        have hrec : collapseAux true (joinSeps (w2 :: ws'') ss) =
            joinSp (w2 :: ws'') := by
          have hhead : ∀ c ∈ (joinSeps (w2 :: ws'') ss).head?,
              isJsSpace c = false := by
            intro c hc
            have hw2 := hw w2 (List.mem_cons_of_mem _ (List.mem_cons_self _ _))
            obtain ⟨y, w2', hw2'⟩ : ∃ y w2', w2 = y :: w2' := by
              cases w2 with
              | nil => exact absurd rfl hw2.1
              | cons a bl => exact ⟨a, bl, rfl⟩
            have hhd : (joinSeps (w2 :: ws'') ss).head? = some y := by
              cases ws'' with
              | nil =>
                cases ss with
                | nil => rw [hw2']; rfl
                | cons s2 ss' => rw [hw2']; rfl
              | cons w3 ws''' =>
                cases ss with
                | nil => rw [hw2']; rfl
                | cons s2 ss' => rw [hw2']; rfl
            rw [hhd] at hc
            have hcy : y = c := by simpa using hc
            rw [← hcy]
            exact hw2.2 y (by rw [hw2']; exact List.mem_cons_self _ _)
          rw [collapseAux_true_eq_false _ hhead]
          exact ih ss false (by simp)
            (fun x hx => hw x (List.mem_cons_of_mem _ hx))
            (fun x hx => hsep x (List.mem_cons_of_mem _ hx))
            (by simpa using hlen)
        rw [hrec]
        rfl

/-- The single-space join of non-empty black words starts with a
non-whitespace character. -/
theorem joinSp_head_not_space (ws : List (List Char))
    (hw : ∀ w ∈ ws, w ≠ [] ∧ ∀ c ∈ w, isJsSpace c = false) :
    ∀ c ∈ (joinSp ws).head?, isJsSpace c = false := by
  cases ws with
  | nil => intro c hc; cases hc
  | cons w ws' =>
    intro c hc
    have hwp := hw w (List.mem_cons_self _ _)
    obtain ⟨y, w', rfl⟩ : ∃ y w', w = y :: w' := by
      cases w with
      | nil => exact absurd rfl hwp.1
      | cons a bl => exact ⟨a, bl, rfl⟩
    have hhd : (joinSp ((y :: w') :: ws')).head? = some y := by
      cases ws' with
      | nil => rfl
      | cons w2 ws'' => rfl
    rw [hhd] at hc
    have hyc : y = c := by simpa using hc
    rw [← hyc]
    exact hwp.2 y (List.mem_cons_self _ _)

/-- The single-space join of non-empty black words is non-empty. -/
theorem joinSp_ne_nil (ws : List (List Char)) (hne : ws ≠ [])
    (hw : ∀ w ∈ ws, w ≠ [] ∧ ∀ c ∈ w, isJsSpace c = false) :
    joinSp ws ≠ [] := by
  cases ws with
  | nil => exact absurd rfl hne
  | cons w ws' =>
    have hwp := hw w (List.mem_cons_self _ _)
    obtain ⟨y, w', rfl⟩ : ∃ y w', w = y :: w' := by
      cases w with
      | nil => exact absurd rfl hwp.1
      | cons a bl => exact ⟨a, bl, rfl⟩
    cases ws' with
    | nil => simp [joinSp]
    | cons w2 ws'' => simp [joinSp]

/-- The single-space join of non-empty black words ends with a
non-whitespace character. -/
theorem joinSp_revhead_not_space (ws : List (List Char))
    (hw : ∀ w ∈ ws, w ≠ [] ∧ ∀ c ∈ w, isJsSpace c = false) :
    ∀ c ∈ (joinSp ws).reverse.head?, isJsSpace c = false := by
  induction ws with
  | nil => intro c hc; cases hc
  | cons w ws' ih =>
    cases ws' with
    | nil =>
      intro c hc
      have hm : c ∈ w := by
        have hmem := List.mem_of_mem_head? hc
        rwa [List.mem_reverse] at hmem
      exact (hw w (List.mem_cons_self _ _)).2 c hm
    | cons w2 ws'' =>
      intro c hc
      have hJne : joinSp (w2 :: ws'') ≠ [] :=
        joinSp_ne_nil _ (by simp)
          (fun x hx => hw x (List.mem_cons_of_mem _ hx))
      have hrw : (joinSp (w :: w2 :: ws'')).reverse.head? =
          (joinSp (w2 :: ws'')).reverse.head? := by
        show (w ++ ' ' :: joinSp (w2 :: ws'')).reverse.head? = _
        rw [List.reverse_append, List.reverse_cons, List.head?_append,
          List.head?_append]
        have hne' : (joinSp (w2 :: ws'')).reverse.head? ≠ none := by
          simpa using hJne
        cases hh : (joinSp (w2 :: ws'')).reverse.head? with
        | none => exact absurd hh hne'
        | some z => rfl
      rw [hrw] at hc
      exact ih (fun x hx => hw x (List.mem_cons_of_mem _ hx)) c hc

/-- Trimming is the identity on a single-space join of non-empty black
words. -/
theorem jsTrim_joinSp (ws : List (List Char))
    (hw : ∀ w ∈ ws, w ≠ [] ∧ ∀ c ∈ w, isJsSpace c = false) :
    jsTrim (joinSp ws) = joinSp ws := by
  unfold jsTrim
  rw [dropWhile_eq_self_of_head _ _ (joinSp_head_not_space ws hw)]
  exact dropTrailingWs_eq_self _ (joinSp_revhead_not_space ws hw)



/-- The space character is whitespace. -/
theorem isJsSpace_space : isJsSpace ' ' = true := rfl

/-- Any sufficient fuel computes the same word list. -/
theorem wordsOfAux_congr : ∀ (n m : Nat) (l : List Char), l.length < n →
    l.length < m → wordsOfAux n l = wordsOfAux m l := by
  intro n
  induction n with
  | zero =>
    intro m l hn
    cases hn
  | succ n ih =>
    intro m l hn hm
    cases m with
    | zero => cases hm
    | succ m =>
      cases l with
      | nil => rfl
      | cons c rest =>
        simp only [wordsOfAux]
        by_cases hc : isJsSpace c = true
        · rw [if_pos hc, if_pos hc]
          exact ih m rest (by simpa using hn) (by simpa using hm)
        · rw [if_neg hc, if_neg hc]
          have hdw : (rest.dropWhile (fun d => !(isJsSpace d))).length ≤
              rest.length := (List.dropWhile_suffix _).sublist.length_le
          have hln : rest.length < n := by simpa using hn
          have hlm : rest.length < m := by simpa using hm
          rw [ih m (rest.dropWhile (fun d => !(isJsSpace d)))
            (by omega) (by omega)]

/-- Unfolding: the empty quote has no words. -/
theorem wordsOf_nil : wordsOf [] = [] := rfl

/-- Unfolding: a whitespace head is skipped. -/
theorem wordsOf_cons_space (c : Char) (rest : List Char)
    (h : isJsSpace c = true) : wordsOf (c :: rest) = wordsOf rest := by
  show wordsOfAux (rest.length + 1 + 1) (c :: rest) = wordsOfAux (rest.length + 1) rest
  simp only [wordsOfAux]
  rw [if_pos h]

/-- Unfolding: a non-whitespace head opens a word running to the next
whitespace. -/
theorem wordsOf_cons_black (c : Char) (rest : List Char)
    (h : isJsSpace c = false) :
    wordsOf (c :: rest) =
      (c :: rest.takeWhile (fun d => !(isJsSpace d))) ::
        wordsOf (rest.dropWhile (fun d => !(isJsSpace d))) := by
  show wordsOfAux (rest.length + 1 + 1) (c :: rest) = _
  simp only [wordsOfAux]
  rw [if_neg (by simp [h])]
  have hdw : (rest.dropWhile (fun d => !(isJsSpace d))).length ≤ rest.length :=
    (List.dropWhile_suffix _).sublist.length_le
  rw [wordsOfAux_congr (rest.length + 1)
    ((rest.dropWhile (fun d => !(isJsSpace d))).length + 1)
    (rest.dropWhile (fun d => !(isJsSpace d))) (by omega) (by omega)]
  rfl

/-- Trailing all-whitespace blocks are dropped entirely. -/
theorem dropTrailingWs_append_spaces (x s : List Char)
    (hs : ∀ c ∈ s, isJsSpace c = true) :
    dropTrailingWs (x ++ s) = dropTrailingWs x := by
  unfold dropTrailingWs
  rw [List.reverse_append, List.dropWhile_append_of_pos
    (fun a ha => hs a (List.mem_reverse.mp ha))]

/-- Every word is non-empty and free of whitespace. -/
theorem wordsOf_words_aux : ∀ (n : Nat) (l : List Char), l.length ≤ n →
    ∀ w ∈ wordsOf l, w ≠ [] ∧ ∀ c ∈ w, isJsSpace c = false := by
  intro n
  induction n with
  | zero =>
    intro l hl
    have hnil : l = [] := List.length_eq_zero.mp (Nat.le_zero.mp hl)
    subst hnil
    intro w hw
    cases hw
  | succ n ih =>
    intro l hl w hw
    cases l with
    | nil => cases hw
    | cons c rest =>
      have hrest : rest.length ≤ n := by
        simp only [List.length_cons] at hl
        omega
      by_cases hc : isJsSpace c = true
      · rw [wordsOf_cons_space c rest hc] at hw
        exact ih rest hrest w hw
      · rw [wordsOf_cons_black c rest (by simpa using hc)] at hw
        rcases List.mem_cons.mp hw with rfl | hw'
        · refine ⟨by simp, ?_⟩
          intro x hx
          rcases List.mem_cons.mp hx with rfl | hx'
          · simpa using hc
          · have := List.mem_takeWhile_imp hx'
            simpa using this
        · refine ih (rest.dropWhile (fun d => !(isJsSpace d))) ?_ w hw'
          have hdw : (rest.dropWhile (fun d => !(isJsSpace d))).length ≤
              rest.length := (List.dropWhile_suffix _).sublist.length_le
          omega

/-- Every word is non-empty and free of whitespace. -/
theorem wordsOf_words (l : List Char) :
    ∀ w ∈ wordsOf l, w ≠ [] ∧ ∀ c ∈ w, isJsSpace c = false :=
  wordsOf_words_aux l.length l (Nat.le_refl _)

/-- On a whitespace-normalized string, trimming agrees with splitting
into words and rejoining them with single spaces. -/
theorem jsTrim_eq_joinSp_wordsOf_aux : ∀ (n : Nat) (l : List Char),
    l.length ≤ n → NormalizedShape l → jsTrim l = joinSp (wordsOf l) := by
  intro n
  induction n with
  | zero =>
    intro l hl _
    have hnil : l = [] := List.length_eq_zero.mp (Nat.le_zero.mp hl)
    subst hnil
    rfl
  | succ n ih =>
    intro l hl hshape
    cases l with
    | nil => rfl
    | cons c rest =>
      have htail : NormalizedShape rest :=
        ⟨fun x hx => hshape.1 x (List.mem_cons_of_mem _ hx),
          (List.chain'_cons'.mp hshape.2).2⟩
      have hrlen : rest.length ≤ n := by
        simp only [List.length_cons] at hl
        omega
      by_cases hc : isJsSpace c = true
      · have h1 : jsTrim (c :: rest) = jsTrim rest := by
          unfold jsTrim
          rw [List.dropWhile_cons, if_pos hc]
        rw [h1, wordsOf_cons_space c rest hc]
        exact ih rest hrlen htail
      · have hc' : isJsSpace c = false := by simpa using hc
        rw [wordsOf_cons_black c rest hc']
        have hsplit : c :: rest =
            (c :: rest.takeWhile (fun d => !(isJsSpace d))) ++
              rest.dropWhile (fun d => !(isJsSpace d)) := by
          simp [List.takeWhile_append_dropWhile]
        have hwblack : ∀ x ∈ c :: rest.takeWhile (fun d => !(isJsSpace d)),
            isJsSpace x = false := by
          intro x hx
          rcases List.mem_cons.mp hx with rfl | hx'
          · exact hc'
          · have := List.mem_takeWhile_imp hx'
            simpa using this
        have hwhead : ∀ x ∈ ((c :: rest.takeWhile (fun d => !(isJsSpace d))) ++
            rest.dropWhile (fun d => !(isJsSpace d))).head?, isJsSpace x = false := by
          intro x hx
          have hxc : c = x := by simpa using hx
          subst hxc
          exact hc'
        cases hr : rest.dropWhile (fun d => !(isJsSpace d)) with
        | nil =>
          rw [wordsOf_nil]
          have hleq : c :: rest = c :: rest.takeWhile (fun d => !(isJsSpace d)) := by
            have h0 := hsplit
            rw [hr, List.append_nil] at h0
            exact h0
          calc jsTrim (c :: rest)
              = jsTrim (c :: rest.takeWhile (fun d => !(isJsSpace d))) := by
                rw [← hleq]
            _ = dropTrailingWs (c :: rest.takeWhile (fun d => !(isJsSpace d))) := by
                unfold jsTrim
                rw [dropWhile_eq_self_of_head _ _ (fun x hx => by
                  have hxc : c = x := by simpa using hx
                  subst hxc
                  exact hc')]
            _ = c :: rest.takeWhile (fun d => !(isJsSpace d)) :=
                dropTrailingWs_eq_self _ (fun x hx => by
                  have hm := List.mem_of_mem_head? hx
                  rw [List.mem_reverse] at hm
                  exact hwblack x hm)
            _ = joinSp [c :: rest.takeWhile (fun d => !(isJsSpace d))] := rfl
        | cons d r' =>
          have hd_space : isJsSpace d = true := by
            have hh := head_dropWhile_false (fun d => !(isJsSpace d)) rest d
              (by rw [hr]; rfl)
            simpa using hh
          have hd_mem : d ∈ c :: rest := by
            rw [hsplit, hr]
            exact List.mem_append_right _ (List.mem_cons_self _ _)
          have hd_eq : d = ' ' := hshape.1 d hd_mem hd_space
          have hleq : c :: rest =
              (c :: rest.takeWhile (fun d => !(isJsSpace d))) ++ (d :: r') := by
            have h0 := hsplit
            rw [hr] at h0
            exact h0
          cases r' with
          | nil =>
            rw [wordsOf_cons_space d [] hd_space, wordsOf_nil]
            calc jsTrim (c :: rest)
                = jsTrim ((c :: rest.takeWhile (fun d => !(isJsSpace d))) ++ [d]) := by
                  rw [← hleq]
              _ = dropTrailingWs
                    ((c :: rest.takeWhile (fun d => !(isJsSpace d))) ++ [d]) := by
                  unfold jsTrim
                  rw [dropWhile_eq_self_of_head _ _ (by
                    rw [hr] at hwhead
                    exact hwhead)]
              _ = dropTrailingWs (c :: rest.takeWhile (fun d => !(isJsSpace d))) :=
                  dropTrailingWs_append_spaces _ [d] (fun x hx => by
                    have hxd : x = d := by simpa using hx
                    subst hxd
                    exact hd_space)
              _ = c :: rest.takeWhile (fun d => !(isJsSpace d)) :=
                  dropTrailingWs_eq_self _ (fun x hx => by
                    have hm := List.mem_of_mem_head? hx
                    rw [List.mem_reverse] at hm
                    exact hwblack x hm)
              _ = joinSp [c :: rest.takeWhile (fun d => !(isJsSpace d))] := rfl
          | cons e r'' =>
            have hsuf : (d :: e :: r'') <:+ c :: rest := by
              refine ⟨c :: rest.takeWhile (fun d => !(isJsSpace d)), ?_⟩
              exact hleq.symm
            have hchain : (d :: e :: r'').Chain'
                (fun a b => ¬(isJsSpace a = true ∧ isJsSpace b = true)) :=
              chain'_of_isInfix hshape.2 hsuf.isInfix
            have he : isJsSpace e = false := by
              have hre := (List.chain'_cons.mp hchain).1
              by_contra hcon
              exact hre ⟨hd_space, by simpa using hcon⟩
            have hshape_er : NormalizedShape (e :: r'') := by
              refine normalizedShape_of_isInfix hshape ?_
              have : (e :: r'') <:+ (d :: e :: r'') := List.suffix_cons _ _
              exact (this.trans hsuf).isInfix
            have hlen_er : (e :: r'').length ≤ n := by
              have hlensplit := congrArg List.length hleq
              simp only [List.length_cons, List.length_append] at hlensplit hl ⊢
              omega
            have hih := ih (e :: r'') hlen_er hshape_er
            have hjt_er : jsTrim (e :: r'') = dropTrailingWs (e :: r'') := by
              unfold jsTrim
              rw [dropWhile_eq_self_of_head _ _ (fun x hx => by
                have hxe : e = x := by simpa using hx
                subst hxe
                exact he)]
            rw [wordsOf_cons_space d (e :: r'') hd_space]
            obtain ⟨w0, ws0, hws0⟩ : ∃ w0 ws0, wordsOf (e :: r'') = w0 :: ws0 := by
              rw [wordsOf_cons_black e r'' he]
              exact ⟨_, _, rfl⟩
            calc jsTrim (c :: rest)
                = jsTrim ((c :: rest.takeWhile (fun d => !(isJsSpace d))) ++
                    (d :: e :: r'')) := by rw [← hleq]
              _ = dropTrailingWs ((c :: rest.takeWhile (fun d => !(isJsSpace d))) ++
                    (d :: e :: r'')) := by
                  unfold jsTrim
                  rw [dropWhile_eq_self_of_head _ _ (by
                    rw [hr] at hwhead
                    exact hwhead)]
              _ = dropTrailingWs (((c :: rest.takeWhile (fun d => !(isJsSpace d))) ++
                    [d]) ++ (e :: r'')) := by
                  rw [List.append_cons]
              _ = ((c :: rest.takeWhile (fun d => !(isJsSpace d))) ++ [d]) ++
                    dropTrailingWs (e :: r'') :=
                  dropTrailingWs_append _ _ e (List.mem_cons_self _ _) he
              _ = (c :: rest.takeWhile (fun d => !(isJsSpace d))) ++
                    (d :: dropTrailingWs (e :: r'')) := by
                  rw [List.append_assoc]
                  rfl
              _ = (c :: rest.takeWhile (fun d => !(isJsSpace d))) ++
                    (' ' :: joinSp (w0 :: ws0)) := by
                  rw [← hjt_er, hih, hws0, hd_eq]
              _ = joinSp ((c :: rest.takeWhile (fun d => !(isJsSpace d))) ::
                    w0 :: ws0) := rfl
              _ = joinSp ((c :: rest.takeWhile (fun d => !(isJsSpace d))) ::
                    wordsOf (e :: r'')) := by rw [hws0]
            
/-- On a whitespace-normalized string, trimming agrees with splitting
into words and rejoining them with single spaces. -/
theorem jsTrim_eq_joinSp_wordsOf (l : List Char) (h : NormalizedShape l) :
    jsTrim l = joinSp (wordsOf l) :=
  jsTrim_eq_joinSp_wordsOf_aux l.length l (Nat.le_refl _) h

/-- Claim C5: for a page whose lookup yields text T, any substring Q of
the whitespace-normalized T, rebuilt from its words with arbitrary
non-empty whitespace separators between consecutive words, is accepted by
verifyQuote. -/
theorem c5_verify_reconstructed (pages : List PageInput) (p : Int)
    (T Q : List Char) (seps : List (List Char))
    (hfind : pages.find? (fun pd => pd.page == p) = some ⟨p, T⟩)
    (hinf : Q <:+: normalizeWhitespace T)
    (hlen : seps.length = (wordsOf Q).length - 1)
    (hsep : ∀ s ∈ seps, s ≠ [] ∧ ∀ c ∈ s, isJsSpace c = true) :
    verifyQuote pages p (joinSeps (wordsOf Q) seps) = true := by
  unfold verifyQuote
  rw [hfind]
  apply listIncludes_iff_eq_true.mpr
  by_cases hws : wordsOf Q = []
  · rw [hws]
    have hj : joinSeps [] seps = [] := rfl
    rw [hj]
    have hn : normalizeWhitespace ([] : List Char) = [] := rfl
    rw [hn]
    exact List.nil_infix
  · have hw := wordsOf_words Q
    have hshapeQ : NormalizedShape Q :=
      normalizedShape_of_isInfix (normalizedShape_normalizeWhitespace T) hinf
    have h1 : normalizeWhitespace (joinSeps (wordsOf Q) seps) =
        joinSp (wordsOf Q) := by
      unfold normalizeWhitespace
      rw [collapseAux_joinSeps (wordsOf Q) seps false hws hw hsep hlen]
      exact jsTrim_joinSp _ hw
    rw [h1]
    rw [← jsTrim_eq_joinSp_wordsOf Q hshapeQ]
    exact (jsTrim_isInfix Q).trans hinf

/-- Claim C5, witness: the words of the substring "hello world" of the
normalized page text, reconstructed with a tab-bearing separator, verify
against the page. -/
theorem c5_witness :
    verifyQuote [⟨1, S "hello  world foo"⟩] 1
      (joinSeps (wordsOf (S "hello world")) [S " \t "]) = true :=
  c5_verify_reconstructed [⟨1, S "hello  world foo"⟩] 1
    (S "hello  world foo") (S "hello world") [S " \t "] rfl
    (listIncludes_iff_eq_true.mp (by rfl))
    (by rfl)
    (by decide)
